import Mathlib

/-!
Verification of the mpcalc expression-rewriter (src/mpcalc.py) against its
natural-language specification.  The rewriter is embedded shallowly: strings
are lists of characters, the regex-based stages become executable scanning
functions, and the external mpmath library is treated as an opaque
collaborator (only the call structure visible in the source is modelled).
-/

set_option maxRecDepth 8000

namespace Mpcalc

/-- Escape-marker character (backslash): a reserved character that suppresses
rewriting of the text immediately following it. -/
def backslashChar : Char := Char.ofNat 92

/-- Single-quote character, used in the generated table-lookup expressions. -/
def quoteChar : Char := Char.ofNat 39

/-- Whitespace test modelling the regex whitespace class over the Latin-1
range (space, tab, newline, vertical tab, form feed, carriage return, the
separator controls 28-31, next line 133 and no-break space 160). -/
def isWs (c : Char) : Bool :=
  decide (c = ' ') || decide (c = Char.ofNat 9) || decide (c = Char.ofNat 10) ||
  decide (c = Char.ofNat 11) || decide (c = Char.ofNat 12) || decide (c = Char.ofNat 13) ||
  decide (c = Char.ofNat 28) || decide (c = Char.ofNat 29) || decide (c = Char.ofNat 30) ||
  decide (c = Char.ofNat 31) || decide (c = Char.ofNat 133) || decide (c = Char.ofNat 160)

/-- Character class of `allowed_characters` in the source: letters, digits,
whitespace, underscore, colon, equals, and the escaped block holding the
backslash, parentheses, period, plus, minus, slash, asterisk, caret,
ampersand, pipe, comma and square brackets. -/
def allowedChar (c : Char) : Bool :=
  c.isAlpha || c.isDigit || isWs c || decide (c = '_') || decide (c = ':') ||
  decide (c = '=') || decide (c = backslashChar) || decide (c = '(') || decide (c = ')') ||
  decide (c = '.') || decide (c = '+') || decide (c = '-') || decide (c = '/') ||
  decide (c = '*') || decide (c = '^') || decide (c = '&') || decide (c = '|') ||
  decide (c = ',') || decide (c = '[') || decide (c = ']')

/-- Spec-side allowed set, written from the specification's listing:
"letters, digits, whitespace, underscore, colon, equals, escape marker,
parentheses, period, plus, minus, slash, asterisk, caret, ampersand, pipe,
comma, brackets". -/
def AllowedSpec (c : Char) : Prop :=
  c.isAlpha = true ∨ c.isDigit = true ∨ isWs c = true ∨ c = '_' ∨ c = ':' ∨ c = '=' ∨
  c = backslashChar ∨ c = '(' ∨ c = ')' ∨ c = '.' ∨ c = '+' ∨ c = '-' ∨ c = '/' ∨
  c = '*' ∨ c = '^' ∨ c = '&' ∨ c = '|' ∨ c = ',' ∨ c = '[' ∨ c = ']'

/-- Test whether position `i` of `s` holds a decimal digit. -/
def digitAt (s : List Char) (i : Nat) : Bool := (s[i]?).any Char.isDigit

/-- One alternative of `open_float_pattern` matches at position `i`:
either a period not preceded by a digit and followed by a digit, or a digit
followed by a period that is not followed by a digit. -/
def openFloatMatchAt (s : List Char) (i : Nat) : Bool :=
  (decide (s[i]? = some '.') && digitAt s (i + 1) && !(decide (1 ≤ i) && digitAt s (i - 1))) ||
  (digitAt s i && decide (s[i + 1]? = some '.') && !digitAt s (i + 2))

/-- Embedding of searching `open_float_pattern` anywhere in the string. -/
def openFloatFound (s : List Char) : Bool :=
  (List.range s.length).any (openFloatMatchAt s)

/-- Spec-side open-float condition: the string contains a digit immediately
followed by a period with no following digit, or a period immediately
followed by a digit with no preceding digit. -/
def OpenFloatSpec (s : List Char) : Prop :=
  (∃ i, digitAt s i = true ∧ s[i + 1]? = some '.' ∧ digitAt s (i + 2) = false) ∨
  (∃ i, s[i]? = some '.' ∧ digitAt s (i + 1) = true ∧ (i = 0 ∨ digitAt s (i - 1) = false))

/-- Errors raised by the validation step of the program (both are raised as
`ValueError` in the source; the payload of the first is the offending
character). -/
inductive ValidationError where
  | invalidCharacter (c : Char)
  | ambiguousFloatLiteral
deriving DecidableEq

/-- Embedding of the validation in the main block: first search for a
disallowed character (raising an error naming it), then search for an open
float. -/
def validate (s : List Char) : Option ValidationError :=
  match s.find? (fun c => !allowedChar c) with
  | some c => some (ValidationError.invalidCharacter c)
  | none => if openFloatFound s then some ValidationError.ambiguousFloatLiteral else none

/-- Character class of `cannot_start_after` in the source: letters, digits,
underscore, backslash and period; a name or number match must not start
immediately after one of these. -/
def cannotStartAfter (c : Char) : Bool :=
  c.isAlpha || c.isDigit || decide (c = '_') || decide (c = backslashChar) || decide (c = '.')

/-- Lookbehind test for the character of the original string just before
the current scan position (`none` at the start of the string). -/
def prevBlocks : Option Char → Bool
  | none => false
  | some c => cannotStartAfter c

/-- First character class of `name_pattern`: a letter or an underscore. -/
def identStart (c : Char) : Bool := c.isAlpha || decide (c = '_')

/-- Continuation class of `name_pattern`: letters or digits. -/
def identCont (c : Char) : Bool := c.isAlpha || c.isDigit

/-- Length of the greedy `name_pattern` token starting at the head of the
string, ignoring the lookbehind (which the caller checks). -/
def nameMatchLen : List Char → Option Nat
  | [] => none
  | c :: rest => if identStart c then some (1 + (rest.takeWhile identCont).length) else none

/-- One pass of re.sub with `name_pattern` and replacement mp.\1, with
`prev` the character of the original string just before the scan position.
The fuel argument only bounds the recursion; `replaceNames` supplies enough
fuel for it never to run out, since every step consumes at least one
character. -/
def replaceNamesF : Nat → Option Char → List Char → List Char
  | 0, _, s => s
  | fuel + 1, prev, s =>
    match s with
    | [] => []
    | c :: rest =>
      if prevBlocks prev then c :: replaceNamesF fuel (some c) rest
      else
        match nameMatchLen (c :: rest) with
        | some k =>
          'm' :: 'p' :: '.' :: ((c :: rest).take k ++
            replaceNamesF fuel ((c :: rest).take k).getLast? ((c :: rest).drop k))
        | none => c :: replaceNamesF fuel (some c) rest

/-- Stage 2 of the pipeline: qualify unescaped identifiers with the mp
namespace. -/
def replaceNames (s : List Char) : List Char := replaceNamesF s.length none s

/-- Test for `int_pattern` against an entire string: one or more characters,
all digits or underscores, beginning with a digit and (by the trailing
lookbehind of the regex) ending with a digit. -/
def isIntLit (t : List Char) : Bool :=
  t.head?.any Char.isDigit && t.all (fun d => d.isDigit || decide (d = '_')) &&
    t.getLast?.any Char.isDigit

/-- All candidate lengths, longest first (the backtracking order of the
regex engine), of an `int_pattern` match at the head of `t`. -/
def intLens (t : List Char) : List Nat :=
  (((List.range t.length).map (fun a => a + 1)).filter
      (fun k => isIntLit (t.take k))).reverse

/-- Candidate lengths of the optional fractional part at the head of `t`
(present is preferred over absent). -/
def fracLens (t : List Char) : List Nat :=
  if t.head? = some '.' then (intLens t.tail).map (fun a => a + 1) ++ [0] else [0]

/-- Candidate lengths of the optional exponent part at the head of `t`.
Keeping the optional minus is preferred; when the character after the e is
not a minus the first alternative contributes nothing, and when it is a
minus the second alternative is empty because an integer cannot start at
the minus. -/
def expLens (t : List Char) : List Nat :=
  if t.head? = some 'e' then
    (if t.tail.head? = some '-' then (intLens t.tail.tail).map (fun a => a + 2) else []) ++
      (intLens t.tail).map (fun a => a + 1) ++ [0]
  else [0]

/-- Candidate lengths of the optional trailing imaginary-unit marker. -/
def jLens (t : List Char) : List Nat :=
  if t.head? = some 'j' then [1, 0] else [0]

/-- Candidate lengths of integer-fraction-exponent matches at the head of
`t`, in the backtracking order of the regex engine (later components
backtrack first). -/
def numTailLens (t : List Char) : List Nat :=
  (intLens t).flatMap (fun k1 =>
    (fracLens (t.drop k1)).flatMap (fun k2 =>
      (expLens (t.drop (k1 + k2))).map (fun k3 => k1 + k2 + k3)))

/-- Candidate lengths including the optional imaginary marker. -/
def numberFullLens (t : List Char) : List Nat :=
  (numTailLens t).flatMap (fun k => (jLens (t.drop k)).map (fun j => k + j))

/-- Lookahead of `number_pattern`: the match must not be followed by a
letter, digit, period or underscore. -/
def numFollowOk : List Char → Bool
  | [] => true
  | c :: _ => !(c.isAlpha || c.isDigit || decide (c = '.') || decide (c = '_'))

/-- Length of the `number_pattern` match at the head of `s`, ignoring the
lookbehind (which the caller checks): the sign, when present, is always
consumed (no integer can start at the minus itself), and after it the
first integer-fraction-exponent-marker decomposition in backtracking order
whose lookahead succeeds wins. -/
def numberMatchLen (s : List Char) : Option Nat :=
  if s.head? = some '-' then
    ((numberFullLens s.tail).find? (fun m => numFollowOk (s.tail.drop m))).map (fun m => m + 1)
  else
    (numberFullLens s).find? (fun m => numFollowOk (s.drop m))

/-- Lookup expression NUMBERS[...] with the key between single quotes, as
emitted by `replace_number_with_mpf`. -/
def numLookup (key : List Char) : List Char :=
  'N' :: 'U' :: 'M' :: 'B' :: 'E' :: 'R' :: 'S' :: '[' :: quoteChar ::
    (key ++ (quoteChar :: ']' :: []))

/-- One pass of re.sub with `number_pattern` and `replace_number_with_mpf`:
each match is replaced by a lookup expression keyed by the whole match text
(match[0]) and the key is inserted into the table when absent.  The table
keeps insertion order, like the NUMBERS dict; the stored value is
mp.mpmathify of the key, determined by the key, so the embedding records
the keys.  The fuel argument only bounds the recursion. -/
def replaceNumbersF : Nat → Option Char → List Char → List (List Char) →
    List Char × List (List Char)
  | 0, _, s, tbl => (s, tbl)
  | fuel + 1, prev, s, tbl =>
    match s with
    | [] => ([], tbl)
    | c :: rest =>
      if prevBlocks prev then
        let r := replaceNumbersF fuel (some c) rest tbl
        (c :: r.1, r.2)
      else
        match numberMatchLen (c :: rest) with
        | some k =>
          let key := (c :: rest).take k
          let tbl1 := if key ∈ tbl then tbl else tbl ++ [key]
          let r := replaceNumbersF fuel key.getLast? ((c :: rest).drop k) tbl1
          (numLookup key ++ r.1, r.2)
        | none =>
          let r := replaceNumbersF fuel (some c) rest tbl
          (c :: r.1, r.2)

/-- Stage 3 of the pipeline: extract numeric literals into the table. -/
def replaceNumbers (s : List Char) (tbl : List (List Char)) :
    List Char × List (List Char) :=
  replaceNumbersF s.length none s tbl

/-- Stage 4: delete every occurrence of the escape marker, embedding
str.replace of the backslash by the empty string. -/
def stripEscapes : List Char → List Char
  | [] => []
  | c :: rest => if c = backslashChar then stripEscapes rest else c :: stripEscapes rest

/-- The three rewrite stages the main block applies to a validated
expression, together with the literal table built on the way.  The table
starts empty: it is the module-level NUMBERS dict, initialized to the empty
dict when the process starts, and one program invocation is one process. -/
def pipelineRewrite (s : List Char) : List Char × List (List Char) :=
  (stripEscapes (replaceNumbers (replaceNames s) []).1, (replaceNumbers (replaceNames s) []).2)

/-- Spec-side integer grammar, amended to what the source pattern accepts:
at least one character, the first and last characters digits, every
character a digit or an underscore (consecutive underscores are allowed). -/
def SpecInt (u : List Char) : Prop :=
  (∃ c v, u = c :: v ∧ c.isDigit = true) ∧
  (∀ c ∈ u, c.isDigit = true ∨ c = '_') ∧
  (∃ v c, u = v ++ [c] ∧ c.isDigit = true)

/-- Integer grammar exactly as the claim words it: additionally, the
underscores must be single, never two in a row. -/
def noDoubleUnderscore : List Char → Bool
  | '_' :: '_' :: _ => false
  | _ :: rest => noDoubleUnderscore rest
  | [] => true

/-- Integer grammar of the claim: digits optionally interspersed with
single underscores, no trailing underscore. -/
def specIntClaimed (u : List Char) : Bool := isIntLit u && noDoubleUnderscore u

/-- Spec-side optional fractional part: empty, or a period followed by an
integer. -/
def SpecFrac (u : List Char) : Prop :=
  u = [] ∨ ∃ v, u = '.' :: v ∧ SpecInt v

/-- Spec-side optional exponent part: empty, or an e followed by an
optional minus and an integer. -/
def SpecExp (u : List Char) : Prop :=
  u = [] ∨ (∃ v, u = 'e' :: v ∧ SpecInt v) ∨ (∃ v, u = 'e' :: '-' :: v ∧ SpecInt v)

/-- Spec-side optional imaginary-unit marker. -/
def SpecJ (u : List Char) : Prop := u = [] ∨ u = ['j']

/-- Spec-side integer-fraction-exponent body of a numeric literal. -/
def SpecNumTail (u : List Char) : Prop :=
  ∃ u1 u2 u3, u = u1 ++ u2 ++ u3 ∧ SpecInt u1 ∧ SpecFrac u2 ∧ SpecExp u3

/-- Spec-side body of a numeric literal including the optional marker. -/
def SpecBody (u : List Char) : Prop :=
  ∃ b j, u = b ++ j ∧ SpecNumTail b ∧ SpecJ j

/-- Spec-side complete numeric literal: optional leading minus, integer
part, optional fraction, optional exponent, optional imaginary marker. -/
def SpecNumber (u : List Char) : Prop :=
  ∃ sgn b, u = sgn ++ b ∧ (sgn = [] ∨ sgn = ['-']) ∧ SpecBody b

/-- Spec-side follow condition: a numeric match must not be followed by a
letter, digit, underscore or period. -/
def SpecFollow (rest : List Char) : Prop :=
  ∀ d, rest.head? = some d →
    ¬(d.isAlpha = true ∨ d.isDigit = true ∨ d = '_' ∨ d = '.')

/-- Spec-side lookbehind condition shared by names and numbers: the match
must not be immediately preceded by a letter, digit, underscore, period or
the escape marker. -/
def SpecPrevOk (prev : Option Char) : Prop :=
  ∀ c, prev = some c →
    ¬(c.isAlpha = true ∨ c.isDigit = true ∨ c = '_' ∨ c = '.' ∨ c = backslashChar)

/-- Relational specification of the Identifier Qualifier, written from the
spec: scanning left to right, a maximal identifier run (a letter or
underscore followed by letters or digits) that is not immediately preceded
by a letter, digit, underscore, period or the escape marker is rewritten
to mp. followed by the run; every other character is copied unchanged, in
particular a run blocked by the lookbehind (such as one preceded by the
escape marker, whose marker stays in place) is left untouched. -/
inductive NameQual : Option Char → List Char → List Char → Prop
  | nil (prev : Option Char) : NameQual prev [] []
  | keep (prev : Option Char) (c : Char) (rest out : List Char) :
      (¬ SpecPrevOk prev ∨ ¬ (c.isAlpha = true ∨ c = '_')) →
      NameQual (some c) rest out →
      NameQual prev (c :: rest) (c :: out)
  | qual (prev : Option Char) (c : Char) (t rest out : List Char) :
      SpecPrevOk prev →
      (c.isAlpha = true ∨ c = '_') →
      (∀ d ∈ t, d.isAlpha = true ∨ d.isDigit = true) →
      (∀ d, rest.head? = some d → ¬ (d.isAlpha = true ∨ d.isDigit = true)) →
      NameQual ((c :: t).getLast?) rest out →
      NameQual prev (c :: (t ++ rest)) ('m' :: 'p' :: '.' :: c :: (t ++ out))

/-- Relational specification of the Literal Extractor, written from the
spec, with the integer grammar amended to the source's (consecutive
underscores allowed) and the key being the whole match text (the source
stores match[0], marker included): scanning left to right, a numeric
literal match (optional minus, integer part, optional fraction, optional
exponent, optional imaginary marker) that is not immediately preceded by a
letter, digit, underscore, period or escape marker and not followed by a
letter, digit, underscore or period is replaced by the lookup expression
for its whole text, the text inserted into the table when absent; every
position where no such match starts is copied unchanged. -/
inductive NumRw : Option Char → List Char → List (List Char) → List Char → List (List Char) → Prop
  | nil (prev : Option Char) (tbl : List (List Char)) : NumRw prev [] tbl [] tbl
  | copy (prev : Option Char) (c : Char) (rest : List Char) (tbl : List (List Char))
      (out : List Char) (tbl' : List (List Char)) :
      (¬ SpecPrevOk prev ∨ ∀ k, 1 ≤ k → k ≤ (c :: rest).length →
        ¬ (SpecNumber ((c :: rest).take k) ∧ SpecFollow ((c :: rest).drop k))) →
      NumRw (some c) rest tbl out tbl' →
      NumRw prev (c :: rest) tbl (c :: out) tbl'
  | tok (prev : Option Char) (s : List Char) (k : Nat) (tbl : List (List Char))
      (out : List Char) (tbl' : List (List Char)) :
      SpecPrevOk prev →
      1 ≤ k → k ≤ s.length →
      SpecNumber (s.take k) →
      SpecFollow (s.drop k) →
      NumRw ((s.take k).getLast?) (s.drop k)
        (if s.take k ∈ tbl then tbl else tbl ++ [s.take k]) out tbl' →
      NumRw prev s tbl (numLookup (s.take k) ++ out) tbl'

/-- Output actions of the main block after evaluation (lines 84-92 of the
source): debug mode prints the repr of the result; the all-digits mode
prints via mp.nprint at the requested digit count with zero-stripping
disabled, on the coerced scalar or on the raw result; otherwise the result
is printed with default stringification.  `Scalar` stands for the
arbitrary-precision scalar type of the library, `Value` for an arbitrary
evaluation result; both are opaque here, as the spec treats the library
and the evaluator as external collaborators. -/
inductive OutputAction (Scalar Value : Type) where
  | debugRepr (v : Value)
  | nprint (x : Scalar) (digits : Nat) (stripZeros : Bool)
  | nprintRaw (v : Value) (digits : Nat) (stripZeros : Bool)
  | plainPrint (v : Value)
deriving DecidableEq

/-- Embedding of the output branch: if DEBUG, print the repr of the
result; elif ALL_DIGITS, print mp.nprint of mp.mpmathify of the result at
DIGITS with zero-stripping disabled, falling back to mp.nprint of the raw
result when the coercion fails with TypeError (`mpmathified = none`);
else print the result. -/
def outputStep (Scalar Value : Type) (debug allDigits : Bool) (digits : Nat)
    (mpmathified : Option Scalar) (v : Value) : OutputAction Scalar Value :=
  if debug then OutputAction.debugRepr v
  else if allDigits then
    match mpmathified with
    | some x => OutputAction.nprint x digits false
    | none => OutputAction.nprintRaw v digits false
  else OutputAction.plainPrint v

/-- Model of one program invocation up to the choice of output action:
validation, the rewrite pipeline, evaluation (an opaque collaborator
receiving the rewritten string and the literal table, as eval receives
the NUMBERS environment), and the output branch; `mpm` is the opaque
coercion mp.mpmathify, returning none for a TypeError.  A validation
failure aborts the run with no output. -/
def programAction (Scalar Value : Type) (expr : List Char) (digits : Nat)
    (allDigits debug : Bool) (evalFn : List Char → List (List Char) → Value)
    (mpm : Value → Option Scalar) : Option (OutputAction Scalar Value) :=
  match validate expr with
  | some _ => none
  | none =>
    some (outputStep Scalar Value debug allDigits digits
      (mpm (evalFn (pipelineRewrite expr).1 (pipelineRewrite expr).2))
      (evalFn (pipelineRewrite expr).1 (pipelineRewrite expr).2))

/-- Modelled from the spec: the state of the arithmetic library, its
working precision mp.dps together with the rest of its environment; the
library itself is external to the repository. -/
structure MPState (σ : Type) where
  dps : Nat
  env : σ

/-- Modelled from the spec: mp.workdps(DIGITS) used as a context manager
(line 69 of the source) sets the working precision to the requested digit
count for the body and restores the prior value on every exit path,
normal completion or failure; the body reports failure through Except,
carrying the state at the point of failure. -/
def withWorkdps (σ ε α : Type) (digits : Nat) (st : MPState σ)
    (body : MPState σ → Except (ε × MPState σ) (α × MPState σ)) :
    Except ε α × MPState σ :=
  match body (MPState.mk digits st.env) with
  | Except.ok (a, st1) => (Except.ok a, MPState.mk st.dps st1.env)
  | Except.error (e, st1) => (Except.error e, MPState.mk st.dps st1.env)

theorem allowedChar_iff (c : Char) : allowedChar c = true ↔ AllowedSpec c := by
  simp only [allowedChar, AllowedSpec, Bool.or_eq_true, decide_eq_true_eq]
  tauto

theorem digitAt_lt (s : List Char) (i : Nat) (h : digitAt s i = true) : i < s.length := by
  by_contra hge
  have : s[i]? = none := List.getElem?_eq_none (by omega)
  simp [digitAt, this] at h

theorem getElem?_some_lt (s : List Char) (i : Nat) (c : Char) (h : s[i]? = some c) :
    i < s.length := by
  by_contra hge
  rw [List.getElem?_eq_none (by omega)] at h
  exact Option.noConfusion h

theorem openFloatMatchAt_iff (s : List Char) (i : Nat) :
    openFloatMatchAt s i = true ↔
      ((s[i]? = some '.' ∧ digitAt s (i + 1) = true ∧ (i = 0 ∨ digitAt s (i - 1) = false)) ∨
       (digitAt s i = true ∧ s[i + 1]? = some '.' ∧ digitAt s (i + 2) = false)) := by
  unfold openFloatMatchAt
  simp only [Bool.or_eq_true, Bool.and_eq_true, Bool.not_eq_true', Bool.and_eq_false_iff,
    decide_eq_true_eq, decide_eq_false_iff_not, Bool.not_eq_true]
  constructor
  · rintro (⟨⟨h1, h2⟩, h3⟩ | ⟨⟨h1, h2⟩, h3⟩)
    · left
      refine ⟨h1, h2, ?_⟩
      rcases h3 with h3 | h3
      · left; omega
      · right; exact h3
    · right; exact ⟨h1, h2, h3⟩
  · rintro (⟨h1, h2, h3⟩ | ⟨h1, h2, h3⟩)
    · left
      refine ⟨⟨h1, h2⟩, ?_⟩
      rcases h3 with h3 | h3
      · left; omega
      · right; exact h3
    · right; exact ⟨⟨h1, h2⟩, h3⟩

theorem openFloatFound_iff (s : List Char) : openFloatFound s = true ↔ OpenFloatSpec s := by
  unfold openFloatFound OpenFloatSpec
  rw [List.any_eq_true]
  constructor
  · rintro ⟨i, _, hm⟩
    rcases (openFloatMatchAt_iff s i).mp hm with h | h
    · right; exact ⟨i, h⟩
    · left; exact ⟨i, h⟩
  · rintro (⟨i, h1, h2, h3⟩ | ⟨i, h1, h2, h3⟩)
    · refine ⟨i, List.mem_range.mpr (digitAt_lt s i h1), ?_⟩
      exact (openFloatMatchAt_iff s i).mpr (Or.inr ⟨h1, h2, h3⟩)
    · refine ⟨i, List.mem_range.mpr (getElem?_some_lt s i '.' h1), ?_⟩
      exact (openFloatMatchAt_iff s i).mpr (Or.inl ⟨h1, h2, h3⟩)

theorem isIntLit_iff (u : List Char) : isIntLit u = true ↔ SpecInt u := by
  unfold isIntLit SpecInt
  simp only [Bool.and_eq_true, List.all_eq_true, Bool.or_eq_true, decide_eq_true_eq]
  constructor
  · rintro ⟨⟨hh, hall⟩, hl⟩
    refine ⟨?_, hall, ?_⟩
    · cases u with
      | nil => simp at hh
      | cons a l => exact ⟨a, l, rfl, by simpa using hh⟩
    · cases hgl : u.getLast? with
      | none => rw [hgl] at hl; simp at hl
      | some c =>
        rw [hgl] at hl
        obtain ⟨ys, hys⟩ := List.getLast?_eq_some_iff.mp hgl
        exact ⟨ys, c, hys, by simpa using hl⟩
  · rintro ⟨⟨c, v, rfl, hc⟩, hall, ⟨w, d, hw, hd⟩⟩
    refine ⟨⟨by simpa using hc, hall⟩, ?_⟩
    rw [hw, List.getLast?_concat]
    simpa using hd

theorem intLens_mem (t : List Char) (k : Nat) :
    k ∈ intLens t ↔ 1 ≤ k ∧ k ≤ t.length ∧ SpecInt (t.take k) := by
  unfold intLens
  rw [List.mem_reverse, List.mem_filter]
  simp only [List.mem_map, List.mem_range]
  constructor
  · rintro ⟨⟨a, ha, rfl⟩, hf⟩
    exact ⟨by omega, by omega, (isIntLit_iff _).mp hf⟩
  · rintro ⟨h1, h2, hs⟩
    exact ⟨⟨k - 1, by omega, by omega⟩, (isIntLit_iff _).mpr hs⟩

theorem prevBlocks_iff (prev : Option Char) : prevBlocks prev = false ↔ SpecPrevOk prev := by
  cases prev with
  | none => simp [prevBlocks, SpecPrevOk]
  | some c =>
    constructor
    · intro h d hd
      injection hd with hd
      subst hd
      intro hbad
      unfold prevBlocks cannotStartAfter at h
      rcases hbad with hb | hb | hb | hb | hb <;> simp [hb] at h
    · intro h
      have hc := h c rfl
      push_neg at hc
      obtain ⟨h1, h2, h3, h4, h5⟩ := hc
      simp only [Bool.not_eq_true] at h1 h2
      show cannotStartAfter c = false
      unfold cannotStartAfter
      simp [h1, h2, h3, h4, h5]

theorem numFollowOk_iff (rest : List Char) : numFollowOk rest = true ↔ SpecFollow rest := by
  cases rest with
  | nil => simp [numFollowOk, SpecFollow]
  | cons d l =>
    constructor
    · intro h e he
      injection he with he
      subst he
      intro hbad
      unfold numFollowOk at h
      rcases hbad with hb | hb | hb | hb <;> simp [hb] at h
    · intro h
      have hd := h d rfl
      push_neg at hd
      obtain ⟨h1, h2, h3, h4⟩ := hd
      simp only [Bool.not_eq_true] at h1 h2
      show numFollowOk (d :: l) = true
      unfold numFollowOk
      simp [h1, h2, h3, h4]

theorem take_pos_of_ne_nil {α : Type} (s : List α) (k : Nat) (h : s.take k ≠ []) : 1 ≤ k := by
  cases k with
  | zero => simp at h
  | succ k => omega

theorem head?_take {α : Type} (s : List α) (k : Nat) (h : 1 ≤ k) :
    (s.take k).head? = s.head? := by
  cases s with
  | nil => simp
  | cons a l =>
    cases k with
    | zero => omega
    | succ k => simp [List.take_succ_cons]

theorem SpecInt_ne_nil (u : List Char) (h : SpecInt u) : u ≠ [] := by
  obtain ⟨⟨c, v, rfl, _⟩, _, _⟩ := h
  simp

theorem fracLens_mem (t : List Char) (k : Nat) :
    k ∈ fracLens t ↔ k ≤ t.length ∧ SpecFrac (t.take k) := by
  unfold fracLens
  by_cases h : t.head? = some '.'
  · cases t with
    | nil => simp at h
    | cons a l =>
      simp only [List.head?_cons, Option.some.injEq] at h
      subst h
      have hcond : (('.' :: l) : List Char).head? = some '.' := rfl
      rw [if_pos hcond]
      simp only [List.mem_append, List.mem_map, List.mem_singleton, List.tail_cons]
      constructor
      · rintro (⟨k', hk', rfl⟩ | rfl)
        · obtain ⟨hk1, hk2, hs⟩ := (intLens_mem l k').mp hk'
          refine ⟨by simp; omega, Or.inr ⟨l.take k', by rw [List.take_succ_cons], hs⟩⟩
        · exact ⟨Nat.zero_le _, Or.inl rfl⟩
      · rintro ⟨hk, hs | ⟨v, hv, hsv⟩⟩
        · right
          cases k with
          | zero => rfl
          | succ k' => rw [List.take_succ_cons] at hs; exact absurd hs (by simp)
        · left
          cases k with
          | zero => simp at hv
          | succ k' =>
            rw [List.take_succ_cons] at hv
            injection hv with _ hv2
            refine ⟨k', (intLens_mem l k').mpr ⟨?_, by simp at hk; omega, hv2 ▸ hsv⟩, rfl⟩
            have : l.take k' ≠ [] := by rw [hv2]; exact SpecInt_ne_nil v hsv
            exact take_pos_of_ne_nil l k' this
  · rw [if_neg h]
    simp only [List.mem_singleton]
    constructor
    · rintro rfl
      exact ⟨Nat.zero_le _, Or.inl rfl⟩
    · rintro ⟨hk, hs | ⟨v, hv, _⟩⟩
      · cases t with
        | nil => simp at hk; omega
        | cons a l =>
          cases k with
          | zero => rfl
          | succ k' => rw [List.take_succ_cons] at hs; exact absurd hs (by simp)
      · exfalso
        have h1 : 1 ≤ k := take_pos_of_ne_nil t k (by rw [hv]; simp)
        have := head?_take t k h1
        rw [hv] at this
        simp only [List.head?_cons] at this
        exact h this.symm

theorem expLens_mem (t : List Char) (k : Nat) :
    k ∈ expLens t ↔ k ≤ t.length ∧ SpecExp (t.take k) := by
  unfold expLens
  by_cases h : t.head? = some 'e'
  · cases t with
    | nil => simp at h
    | cons a l =>
      simp only [List.head?_cons, Option.some.injEq] at h
      subst h
      have hcond : (('e' :: l) : List Char).head? = some 'e' := rfl
      rw [if_pos hcond]
      simp only [List.tail_cons, List.mem_append, List.mem_map, List.mem_singleton]
      constructor
      · rintro ((hm | ⟨k', hk', rfl⟩) | rfl)
        · by_cases hm2 : l.head? = some '-'
          · cases l with
            | nil => simp at hm2
            | cons b l2 =>
              simp only [List.head?_cons, Option.some.injEq] at hm2
              subst hm2
              have hcond2 : (('-' :: l2) : List Char).head? = some '-' := rfl
              rw [if_pos hcond2] at hm
              simp only [List.tail_cons, List.mem_map] at hm
              obtain ⟨k', hk', rfl⟩ := hm
              obtain ⟨hk1, hk2, hs⟩ := (intLens_mem l2 k').mp hk'
              refine ⟨by simp; omega, Or.inr (Or.inr ⟨l2.take k', ?_, hs⟩)⟩
              rw [show k' + 2 = (k' + 1) + 1 by omega, List.take_succ_cons,
                List.take_succ_cons]
          · rw [if_neg hm2] at hm
            simp at hm
        · obtain ⟨hk1, hk2, hs⟩ := (intLens_mem l k').mp hk'
          exact ⟨by simp; omega, Or.inr (Or.inl ⟨l.take k', by rw [List.take_succ_cons], hs⟩)⟩
        · exact ⟨Nat.zero_le _, Or.inl rfl⟩
      · rintro ⟨hk, hs | ⟨v, hv, hsv⟩ | ⟨v, hv, hsv⟩⟩
        · right
          cases k with
          | zero => rfl
          | succ k' => rw [List.take_succ_cons] at hs; exact absurd hs (by simp)
        · left; right
          cases k with
          | zero => simp at hv
          | succ k' =>
            rw [List.take_succ_cons] at hv
            injection hv with _ hv2
            refine ⟨k', (intLens_mem l k').mpr ⟨?_, by simp at hk; omega, hv2 ▸ hsv⟩, rfl⟩
            exact take_pos_of_ne_nil l k' (by rw [hv2]; exact SpecInt_ne_nil v hsv)
        · cases k with
          | zero => simp at hv
          | succ k' =>
            rw [List.take_succ_cons] at hv
            injection hv with _ hv2
            cases l with
            | nil => rw [List.take_nil] at hv2; exact absurd hv2 (by simp)
            | cons b l2 =>
              cases k' with
              | zero => rw [List.take_zero] at hv2; exact absurd hv2 (by simp)
              | succ k'' =>
                rw [List.take_succ_cons] at hv2
                injection hv2 with hb hv3
                subst hb
                left; left
                have hcond2 : (('-' :: l2) : List Char).head? = some '-' := rfl
                rw [if_pos hcond2]
                simp only [List.tail_cons, List.mem_map]
                refine ⟨k'', (intLens_mem l2 k'').mpr ⟨?_, by simp at hk; omega, hv3 ▸ hsv⟩, by omega⟩
                exact take_pos_of_ne_nil l2 k'' (by rw [hv3]; exact SpecInt_ne_nil v hsv)
  · rw [if_neg h]
    simp only [List.mem_singleton]
    constructor
    · rintro rfl
      exact ⟨Nat.zero_le _, Or.inl rfl⟩
    · rintro ⟨hk, hs | ⟨v, hv, _⟩ | ⟨v, hv, _⟩⟩
      · cases t with
        | nil => simp at hk; omega
        | cons a l =>
          cases k with
          | zero => rfl
          | succ k' => rw [List.take_succ_cons] at hs; exact absurd hs (by simp)
      · exfalso
        have h1 : 1 ≤ k := take_pos_of_ne_nil t k (by rw [hv]; simp)
        have := head?_take t k h1
        rw [hv] at this
        simp only [List.head?_cons] at this
        exact h this.symm
      · exfalso
        have h1 : 1 ≤ k := take_pos_of_ne_nil t k (by rw [hv]; simp)
        have := head?_take t k h1
        rw [hv] at this
        simp only [List.head?_cons] at this
        exact h this.symm

theorem jLens_mem (t : List Char) (k : Nat) :
    k ∈ jLens t ↔ k ≤ t.length ∧ SpecJ (t.take k) := by
  unfold jLens
  by_cases h : t.head? = some 'j'
  · cases t with
    | nil => simp at h
    | cons a l =>
      simp only [List.head?_cons, Option.some.injEq] at h
      subst h
      have hcond : (('j' :: l) : List Char).head? = some 'j' := rfl
      rw [if_pos hcond]
      simp only [List.mem_cons, List.mem_singleton, List.not_mem_nil, or_false]
      constructor
      · rintro (rfl | rfl)
        · exact ⟨by simp, Or.inr (by rw [List.take_succ_cons, List.take_zero])⟩
        · exact ⟨Nat.zero_le _, Or.inl rfl⟩
      · rintro ⟨hk, hs | hs⟩
        · right
          cases k with
          | zero => rfl
          | succ k' => rw [List.take_succ_cons] at hs; exact absurd hs (by simp)
        · left
          cases k with
          | zero => rw [List.take_zero] at hs; exact absurd hs (by simp)
          | succ k' =>
            cases k' with
            | zero => rfl
            | succ k'' =>
              rw [List.take_succ_cons] at hs
              injection hs with _ hs2
              exfalso
              have hnil : l.take (k'' + 1) = [] := hs2
              cases l with
              | nil => simp at hk
              | cons b l2 => rw [List.take_succ_cons] at hnil; exact absurd hnil (by simp)
  · rw [if_neg h]
    simp only [List.mem_singleton]
    constructor
    · rintro rfl
      exact ⟨Nat.zero_le _, Or.inl rfl⟩
    · rintro ⟨hk, hs | hs⟩
      · cases t with
        | nil => simp at hk; omega
        | cons a l =>
          cases k with
          | zero => rfl
          | succ k' => rw [List.take_succ_cons] at hs; exact absurd hs (by simp)
      · exfalso
        have h1 : 1 ≤ k := take_pos_of_ne_nil t k (by rw [hs]; simp)
        have := head?_take t k h1
        rw [hs] at this
        simp only [List.head?_cons] at this
        exact h this.symm

theorem numTailLens_mem (t : List Char) (k : Nat) :
    k ∈ numTailLens t ↔ k ≤ t.length ∧ SpecNumTail (t.take k) := by
  unfold numTailLens
  simp only [List.mem_flatMap, List.mem_map]
  constructor
  · rintro ⟨k1, hk1, k2, hk2, k3, hk3, rfl⟩
    obtain ⟨h11, h12, hs1⟩ := (intLens_mem t k1).mp hk1
    obtain ⟨h21, hs2⟩ := (fracLens_mem (t.drop k1) k2).mp hk2
    obtain ⟨h31, hs3⟩ := (expLens_mem (t.drop (k1 + k2)) k3).mp hk3
    rw [List.length_drop] at h21 h31
    refine ⟨by omega, t.take k1, (t.drop k1).take k2, (t.drop (k1 + k2)).take k3, ?_, hs1, hs2, hs3⟩
    have e3 : (t.drop k1).drop k2 = t.drop (k1 + k2) := by rw [List.drop_drop]
    calc t.take (k1 + k2 + k3)
        = t.take k1 ++ ((t.drop k1).take k2 ++ (t.drop (k1 + k2)).take k3) := by
          rw [show k1 + k2 + k3 = k1 + (k2 + k3) by omega, List.take_add, List.take_add, e3]
      _ = t.take k1 ++ (t.drop k1).take k2 ++ (t.drop (k1 + k2)).take k3 := by
          rw [List.append_assoc]
  · rintro ⟨hk, u1, u2, u3, heq, hs1, hs2, hs3⟩
    have hlen : u1.length + u2.length + u3.length = k := by
      have hl := congrArg List.length heq
      rw [List.length_take, List.length_append, List.length_append] at hl
      omega
    have hu1 : u1 = t.take u1.length := by
      have h1 : (t.take k).take u1.length = u1 := by
        rw [heq, List.append_assoc, List.take_left]
      rw [List.take_take, Nat.min_eq_left (by omega)] at h1
      exact h1.symm
    have hd1 : (t.drop u1.length).take (k - u1.length) = u2 ++ u3 := by
      have hd := heq
      have : (t.take k).drop u1.length = u2 ++ u3 := by
        rw [heq, List.append_assoc, List.drop_left]
      rw [List.drop_take] at this
      exact this
    have hu2 : u2 = (t.drop u1.length).take u2.length := by
      have h2 : ((t.drop u1.length).take (k - u1.length)).take u2.length = u2 := by
        rw [hd1, List.take_left]
      rw [List.take_take, Nat.min_eq_left (by omega)] at h2
      exact h2.symm
    have hu3 : u3 = (t.drop (u1.length + u2.length)).take u3.length := by
      have h3 : ((t.drop u1.length).take (k - u1.length)).drop u2.length = u3 := by
        rw [hd1, List.drop_left]
      rw [List.drop_take, List.drop_drop] at h3
      rw [show k - u1.length - u2.length = u3.length by omega] at h3
      exact h3.symm
    refine ⟨u1.length, (intLens_mem t u1.length).mpr
        ⟨List.length_pos.mpr (SpecInt_ne_nil u1 hs1), by omega, hu1 ▸ hs1⟩,
      u2.length, (fracLens_mem (t.drop u1.length) u2.length).mpr
        ⟨by rw [List.length_drop]; omega, hu2 ▸ hs2⟩,
      u3.length, (expLens_mem (t.drop (u1.length + u2.length)) u3.length).mpr
        ⟨by rw [List.length_drop]; omega, hu3 ▸ hs3⟩, by omega⟩

theorem numberFullLens_mem (t : List Char) (m : Nat) :
    m ∈ numberFullLens t ↔ m ≤ t.length ∧ SpecBody (t.take m) := by
  unfold numberFullLens
  simp only [List.mem_flatMap, List.mem_map]
  constructor
  · rintro ⟨kb, hkb, j, hj, rfl⟩
    obtain ⟨hb1, hbs⟩ := (numTailLens_mem t kb).mp hkb
    obtain ⟨hj1, hjs⟩ := (jLens_mem (t.drop kb) j).mp hj
    rw [List.length_drop] at hj1
    exact ⟨by omega, t.take kb, (t.drop kb).take j, (List.take_add t kb j), hbs, hjs⟩
  · rintro ⟨hm, b, j, heq, hbs, hjs⟩
    have hlen : b.length + j.length = m := by
      have hl := congrArg List.length heq
      rw [List.length_take, List.length_append] at hl
      omega
    have hb : b = t.take b.length := by
      have h1 : (t.take m).take b.length = b := by rw [heq, List.take_left]
      rw [List.take_take, Nat.min_eq_left (by omega)] at h1
      exact h1.symm
    have hj2 : j = (t.drop b.length).take j.length := by
      have h2 : (t.take m).drop b.length = j := by rw [heq, List.drop_left]
      rw [List.drop_take] at h2
      rw [show m - b.length = j.length by omega] at h2
      exact h2.symm
    refine ⟨b.length, (numTailLens_mem t b.length).mpr ⟨by omega, hb ▸ hbs⟩,
      j.length, (jLens_mem (t.drop b.length) j.length).mpr
        ⟨by rw [List.length_drop]; omega, hj2 ▸ hjs⟩, by omega⟩

theorem SpecBody_head (u : List Char) (h : SpecBody u) :
    ∃ c v, u = c :: v ∧ c.isDigit = true := by
  obtain ⟨b, j, rfl, ⟨u1, u2, u3, rfl, hs1, hf2, hf3⟩, hjs⟩ := h
  obtain ⟨⟨c, v, rfl, hc⟩, h2, h3⟩ := hs1
  exact ⟨c, v ++ u2 ++ u3 ++ j, by simp, hc⟩

theorem SpecBody_ne_nil (u : List Char) (h : SpecBody u) : u ≠ [] := by
  obtain ⟨c, v, rfl, hc⟩ := SpecBody_head u h
  simp

theorem numberMatchLen_sound (s : List Char) (k : Nat) (h : numberMatchLen s = some k) :
    1 ≤ k ∧ k ≤ s.length ∧ SpecNumber (s.take k) ∧ SpecFollow (s.drop k) := by
  unfold numberMatchLen at h
  by_cases hh : s.head? = some '-'
  · rw [if_pos hh, Option.map_eq_some'] at h
    obtain ⟨m, hfind, rfl⟩ := h
    have hmem := List.mem_of_find?_eq_some hfind
    have hfollow := List.find?_some hfind
    obtain ⟨hm1, hbody⟩ := (numberFullLens_mem s.tail m).mp hmem
    cases s with
    | nil => simp at hh
    | cons a l =>
      simp only [List.head?_cons, Option.some.injEq] at hh
      subst hh
      simp only [List.tail_cons] at hm1 hbody hfollow
      refine ⟨by omega, by simp; omega, ?_, ?_⟩
      · rw [List.take_succ_cons]
        exact ⟨['-'], l.take m, by simp, Or.inr rfl, hbody⟩
      · rw [List.drop_succ_cons]
        exact (numFollowOk_iff _).mp hfollow
  · rw [if_neg hh] at h
    have hmem := List.mem_of_find?_eq_some h
    have hfollow := List.find?_some h
    obtain ⟨hm1, hbody⟩ := (numberFullLens_mem s k).mp hmem
    exact ⟨take_pos_of_ne_nil s k (SpecBody_ne_nil _ hbody), hm1,
      ⟨[], s.take k, by simp, Or.inl rfl, hbody⟩, (numFollowOk_iff _).mp hfollow⟩

theorem numberMatchLen_complete (s : List Char) (hnone : numberMatchLen s = none)
    (k : Nat) (hk1 : 1 ≤ k) (hk2 : k ≤ s.length)
    (hs : SpecNumber (s.take k)) (hf : SpecFollow (s.drop k)) : False := by
  obtain ⟨sgn, b, heq, hsgn, hbody⟩ := hs
  unfold numberMatchLen at hnone
  by_cases hh : s.head? = some '-'
  · rw [if_pos hh, Option.map_eq_none'] at hnone
    rw [List.find?_eq_none] at hnone
    cases s with
    | nil => simp at hh
    | cons a l =>
      simp only [List.head?_cons, Option.some.injEq] at hh
      subst hh
      cases k with
      | zero => omega
      | succ m =>
        rw [List.take_succ_cons] at heq
        rcases hsgn with rfl | rfl
        · simp only [List.nil_append] at heq
          obtain ⟨c, v, hcv, hc⟩ := SpecBody_head b hbody
          rw [hcv] at heq
          injection heq with h1 _
          rw [← h1] at hc
          exact absurd hc (by decide)
        · simp only [List.cons_append, List.nil_append] at heq
          injection heq with _ hb
          apply hnone m
          · simp only [List.tail_cons]
            exact (numberFullLens_mem l m).mpr ⟨by simp at hk2; omega, hb ▸ hbody⟩
          · simp only [List.tail_cons]
            rw [List.drop_succ_cons] at hf
            exact (numFollowOk_iff _).mpr hf
  · rw [if_neg hh, List.find?_eq_none] at hnone
    rcases hsgn with rfl | rfl
    · simp only [List.nil_append] at heq
      apply hnone k
      · exact (numberFullLens_mem s k).mpr ⟨hk2, heq ▸ hbody⟩
      · exact (numFollowOk_iff _).mpr hf
    · have h1 := head?_take s k hk1
      rw [heq] at h1
      simp only [List.cons_append, List.nil_append, List.head?_cons] at h1
      exact hh h1.symm

theorem identStart_iff (c : Char) : identStart c = true ↔ (c.isAlpha = true ∨ c = '_') := by
  simp [identStart, Bool.or_eq_true, decide_eq_true_eq]

theorem identCont_iff (c : Char) : identCont c = true ↔ (c.isAlpha = true ∨ c.isDigit = true) := by
  simp [identCont, Bool.or_eq_true]

theorem take_len_takeWhile {α : Type} (p : α → Bool) (l : List α) :
    l.take (l.takeWhile p).length = l.takeWhile p := by
  induction l with
  | nil => simp
  | cons c t ih =>
    rw [List.takeWhile_cons]
    by_cases h : p c
    · rw [if_pos h]
      simp only [List.length_cons, List.take_succ_cons]
      rw [ih]
    · rw [if_neg h]
      simp

theorem drop_len_takeWhile {α : Type} (p : α → Bool) (l : List α) :
    l.drop (l.takeWhile p).length = l.dropWhile p := by
  induction l with
  | nil => simp
  | cons c t ih =>
    rw [List.takeWhile_cons, List.dropWhile_cons]
    by_cases h : p c
    · rw [if_pos h, if_pos h]
      simp only [List.length_cons, List.drop_succ_cons]
      exact ih
    · rw [if_neg h, if_neg h]
      simp

theorem replaceNamesF_refines (fuel : Nat) :
    ∀ (prev : Option Char) (s : List Char), s.length ≤ fuel →
      NameQual prev s (replaceNamesF fuel prev s) := by
  induction fuel with
  | zero =>
    intro prev s hs
    have hnil : s = [] := List.length_eq_zero.mp (by omega)
    subst hnil
    exact NameQual.nil prev
  | succ fuel ih =>
    intro prev s hs
    cases s with
    | nil => exact NameQual.nil prev
    | cons c rest =>
      have hunfold : replaceNamesF (fuel + 1) prev (c :: rest) =
          if prevBlocks prev then c :: replaceNamesF fuel (some c) rest
          else match nameMatchLen (c :: rest) with
            | some k => 'm' :: 'p' :: '.' :: ((c :: rest).take k ++
                replaceNamesF fuel ((c :: rest).take k).getLast? ((c :: rest).drop k))
            | none => c :: replaceNamesF fuel (some c) rest := rfl
      rw [hunfold]
      have hlen : rest.length ≤ fuel := by simp at hs; omega
      by_cases hb : prevBlocks prev = true
      · rw [if_pos hb]
        have hnsp : ¬ SpecPrevOk prev := by
          intro hsp
          rw [(prevBlocks_iff prev).mpr hsp] at hb
          exact Bool.noConfusion hb
        exact NameQual.keep prev c rest _ (Or.inl hnsp) (ih (some c) rest hlen)
      · rw [if_neg hb]
        have hsp : SpecPrevOk prev :=
          (prevBlocks_iff prev).mp (by revert hb; cases prevBlocks prev <;> simp)
        by_cases hc : identStart c = true
        · have hmatch : nameMatchLen (c :: rest) =
              some (1 + (rest.takeWhile identCont).length) := by
            simp only [nameMatchLen]
            rw [if_pos hc]
          simp only [hmatch]
          have htake : (c :: rest).take (1 + (rest.takeWhile identCont).length) =
              c :: rest.takeWhile identCont := by
            rw [Nat.add_comm, List.take_succ_cons, take_len_takeWhile]
          have hdrop : (c :: rest).drop (1 + (rest.takeWhile identCont).length) =
              rest.dropWhile identCont := by
            rw [Nat.add_comm, List.drop_succ_cons, drop_len_takeWhile]
          rw [htake, hdrop]
          have hsplit : rest = rest.takeWhile identCont ++ rest.dropWhile identCont :=
            (List.takeWhile_append_dropWhile identCont rest).symm
          have hall : ∀ d ∈ rest.takeWhile identCont, d.isAlpha = true ∨ d.isDigit = true := by
            intro d hd
            have := List.all_eq_true.mp (List.all_takeWhile (l := rest) (p := identCont)) d hd
            exact (identCont_iff d).mp this
          have hmax : ∀ d, (rest.dropWhile identCont).head? = some d →
              ¬ (d.isAlpha = true ∨ d.isDigit = true) := by
            intro d hd hbad
            have hnot := List.head?_dropWhile_not identCont rest
            rw [hd] at hnot
            simp only at hnot
            rw [(identCont_iff d).mpr hbad] at hnot
            exact Bool.noConfusion hnot
          have hdlen : (rest.dropWhile identCont).length ≤ fuel := by
            have := congrArg List.length hsplit
            rw [List.length_append] at this
            omega
          have main := NameQual.qual prev c (rest.takeWhile identCont)
            (rest.dropWhile identCont) _ hsp ((identStart_iff c).mp hc) hall hmax
            (ih ((c :: rest.takeWhile identCont).getLast?) (rest.dropWhile identCont) hdlen)
          rw [← hsplit] at main
          simpa only [List.cons_append] using main
        · have hmatch : nameMatchLen (c :: rest) = none := by
            simp only [nameMatchLen]
            rw [if_neg hc]
          simp only [hmatch]
          have hnc : ¬ (c.isAlpha = true ∨ c = '_') := by
            intro hcc
            exact hc ((identStart_iff c).mpr hcc)
          exact NameQual.keep prev c rest _ (Or.inr hnc) (ih (some c) rest hlen)

theorem replaceNumbersF_refines (fuel : Nat) :
    ∀ (prev : Option Char) (s : List Char) (tbl : List (List Char)), s.length ≤ fuel →
      NumRw prev s tbl (replaceNumbersF fuel prev s tbl).1 (replaceNumbersF fuel prev s tbl).2 := by
  induction fuel with
  | zero =>
    intro prev s tbl hs
    have hnil : s = [] := List.length_eq_zero.mp (by omega)
    subst hnil
    exact NumRw.nil prev tbl
  | succ fuel ih =>
    intro prev s tbl hs
    cases s with
    | nil => exact NumRw.nil prev tbl
    | cons c rest =>
      have hunfold : replaceNumbersF (fuel + 1) prev (c :: rest) tbl =
          if prevBlocks prev then
            (c :: (replaceNumbersF fuel (some c) rest tbl).1,
              (replaceNumbersF fuel (some c) rest tbl).2)
          else
            match numberMatchLen (c :: rest) with
            | some k =>
              (numLookup ((c :: rest).take k) ++
                (replaceNumbersF fuel ((c :: rest).take k).getLast? ((c :: rest).drop k)
                  (if (c :: rest).take k ∈ tbl then tbl
                   else tbl ++ [(c :: rest).take k])).1,
               (replaceNumbersF fuel ((c :: rest).take k).getLast? ((c :: rest).drop k)
                  (if (c :: rest).take k ∈ tbl then tbl
                   else tbl ++ [(c :: rest).take k])).2)
            | none =>
              (c :: (replaceNumbersF fuel (some c) rest tbl).1,
                (replaceNumbersF fuel (some c) rest tbl).2) := rfl
      rw [hunfold]
      have hlen : rest.length ≤ fuel := by simp at hs; omega
      by_cases hb : prevBlocks prev = true
      · rw [if_pos hb]
        have hnsp : ¬ SpecPrevOk prev := by
          intro hsp
          rw [(prevBlocks_iff prev).mpr hsp] at hb
          exact Bool.noConfusion hb
        exact NumRw.copy prev c rest tbl _ _ (Or.inl hnsp) (ih (some c) rest tbl hlen)
      · rw [if_neg hb]
        have hsp : SpecPrevOk prev :=
          (prevBlocks_iff prev).mp (by revert hb; cases prevBlocks prev <;> simp)
        cases hm : numberMatchLen (c :: rest) with
        | some k =>
          simp only [hm]
          obtain ⟨hk1, hk2, hsn, hsf⟩ := numberMatchLen_sound (c :: rest) k hm
          have hdlen : ((c :: rest).drop k).length ≤ fuel := by
            rw [List.length_drop]
            simp only [List.length_cons]
            omega
          exact NumRw.tok prev (c :: rest) k tbl _ _ hsp hk1 hk2 hsn hsf
            (ih ((c :: rest).take k).getLast? ((c :: rest).drop k)
              (if (c :: rest).take k ∈ tbl then tbl else tbl ++ [(c :: rest).take k]) hdlen)
        | none =>
          simp only [hm]
          refine NumRw.copy prev c rest tbl _ _ (Or.inr ?_) (ih (some c) rest tbl hlen)
          intro k hk1 hk2 hsboth
          exact numberMatchLen_complete (c :: rest) hm k hk1 hk2 hsboth.1 hsboth.2

theorem nodup_snoc {α : Type} (l : List α) (a : α) (h : l.Nodup) (ha : a ∉ l) :
    (l ++ [a]).Nodup := by
  refine List.Nodup.append h (List.nodup_singleton a) ?_
  intro x hx hxa
  rw [List.mem_singleton] at hxa
  subst hxa
  exact ha hx

theorem replaceNumbersF_nodup (fuel : Nat) :
    ∀ (prev : Option Char) (s : List Char) (tbl : List (List Char)), tbl.Nodup →
      ((replaceNumbersF fuel prev s tbl).2).Nodup := by
  induction fuel with
  | zero => intro prev s tbl h; exact h
  | succ fuel ih =>
    intro prev s tbl h
    cases s with
    | nil => exact h
    | cons c rest =>
      show ((replaceNumbersF (fuel + 1) prev (c :: rest) tbl).2).Nodup
      by_cases hb : prevBlocks prev = true
      · have : (replaceNumbersF (fuel + 1) prev (c :: rest) tbl).2 =
            (replaceNumbersF fuel (some c) rest tbl).2 := by
          show (if prevBlocks prev then _ else _ : List Char × List (List Char)).2 = _
          rw [if_pos hb]
        rw [this]
        exact ih (some c) rest tbl h
      · cases hm : numberMatchLen (c :: rest) with
        | some k =>
          have : (replaceNumbersF (fuel + 1) prev (c :: rest) tbl).2 =
              (replaceNumbersF fuel ((c :: rest).take k).getLast? ((c :: rest).drop k)
                (if (c :: rest).take k ∈ tbl then tbl
                 else tbl ++ [(c :: rest).take k])).2 := by
            show (if prevBlocks prev then _ else _ : List Char × List (List Char)).2 = _
            rw [if_neg hb]
            simp only [hm]
          rw [this]
          by_cases hmem : (c :: rest).take k ∈ tbl
          · rw [if_pos hmem]
            exact ih _ _ tbl h
          · rw [if_neg hmem]
            exact ih _ _ _ (nodup_snoc tbl _ h hmem)
        | none =>
          have : (replaceNumbersF (fuel + 1) prev (c :: rest) tbl).2 =
              (replaceNumbersF fuel (some c) rest tbl).2 := by
            show (if prevBlocks prev then _ else _ : List Char × List (List Char)).2 = _
            rw [if_neg hb]
            simp only [hm]
          rw [this]
          exact ih (some c) rest tbl h

theorem replaceNumbersF_keys (fuel : Nat) :
    ∀ (prev : Option Char) (s : List Char) (tbl : List (List Char)) (key : List Char),
      key ∈ (replaceNumbersF fuel prev s tbl).2 →
      key ∈ tbl ∨ (SpecNumber key ∧ key <:+: s) := by
  induction fuel with
  | zero => intro prev s tbl key h; exact Or.inl h
  | succ fuel ih =>
    intro prev s tbl key h
    cases s with
    | nil => exact Or.inl h
    | cons c rest =>
      have hinf : ∀ u : List Char, u <:+: rest → u <:+: (c :: rest) := by
        rintro u ⟨p, q, hpq⟩
        exact ⟨c :: p, q, by rw [← hpq]; simp⟩
      by_cases hb : prevBlocks prev = true
      · have heq : (replaceNumbersF (fuel + 1) prev (c :: rest) tbl).2 =
            (replaceNumbersF fuel (some c) rest tbl).2 := by
          show (if prevBlocks prev then _ else _ : List Char × List (List Char)).2 = _
          rw [if_pos hb]
        rw [heq] at h
        rcases ih (some c) rest tbl key h with h1 | ⟨h1, h2⟩
        · exact Or.inl h1
        · exact Or.inr ⟨h1, hinf key h2⟩
      · cases hm : numberMatchLen (c :: rest) with
        | some k =>
          have heq : (replaceNumbersF (fuel + 1) prev (c :: rest) tbl).2 =
              (replaceNumbersF fuel ((c :: rest).take k).getLast? ((c :: rest).drop k)
                (if (c :: rest).take k ∈ tbl then tbl
                 else tbl ++ [(c :: rest).take k])).2 := by
            show (if prevBlocks prev then _ else _ : List Char × List (List Char)).2 = _
            rw [if_neg hb]
            simp only [hm]
          rw [heq] at h
          obtain ⟨hk1, hk2, hsn, hsf⟩ := numberMatchLen_sound (c :: rest) k hm
          have htakeinf : (c :: rest).take k <:+: (c :: rest) :=
            ⟨[], (c :: rest).drop k, by simp [List.take_append_drop]⟩
          rcases ih _ _ _ key h with h1 | ⟨h1, h2⟩
          · by_cases hmem : (c :: rest).take k ∈ tbl
            · rw [if_pos hmem] at h1
              exact Or.inl h1
            · rw [if_neg hmem] at h1
              rcases List.mem_append.mp h1 with h3 | h3
              · exact Or.inl h3
              · rw [List.mem_singleton] at h3
                subst h3
                exact Or.inr ⟨hsn, htakeinf⟩
          · refine Or.inr ⟨h1, ?_⟩
            obtain ⟨p, q, hpq⟩ := h2
            refine ⟨(c :: rest).take k ++ p, q, ?_⟩
            calc (c :: rest).take k ++ p ++ key ++ q
                = (c :: rest).take k ++ (p ++ key ++ q) := by simp [List.append_assoc]
              _ = (c :: rest).take k ++ (c :: rest).drop k := by rw [hpq]
              _ = c :: rest := List.take_append_drop k (c :: rest)
        | none =>
          have heq : (replaceNumbersF (fuel + 1) prev (c :: rest) tbl).2 =
              (replaceNumbersF fuel (some c) rest tbl).2 := by
            show (if prevBlocks prev then _ else _ : List Char × List (List Char)).2 = _
            rw [if_neg hb]
            simp only [hm]
          rw [heq] at h
          rcases ih (some c) rest tbl key h with h1 | ⟨h1, h2⟩
          · exact Or.inl h1
          · exact Or.inr ⟨h1, hinf key h2⟩

/-- C2: the Validator fails with InvalidCharacter naming the offending
character iff a character outside the allowed set appears; otherwise it
fails with AmbiguousFloatLiteral iff the string has an open float;
otherwise it accepts.  The character check is decided before the
open-float check, and 1. and .5 are rejected while 1.0 and 0.5 are
accepted. -/
theorem C2_validator (s : List Char) :
    ((∃ c, validate s = some (ValidationError.invalidCharacter c)) ↔
        ∃ c ∈ s, ¬ AllowedSpec c) ∧
    (∀ c, validate s = some (ValidationError.invalidCharacter c) →
        c ∈ s ∧ ¬ AllowedSpec c) ∧
    (validate s = some ValidationError.ambiguousFloatLiteral ↔
        ((∀ c ∈ s, AllowedSpec c) ∧ OpenFloatSpec s)) ∧
    (validate s = none ↔ ((∀ c ∈ s, AllowedSpec c) ∧ ¬ OpenFloatSpec s)) ∧
    validate "1.".toList = some ValidationError.ambiguousFloatLiteral ∧
    validate ".5".toList = some ValidationError.ambiguousFloatLiteral ∧
    validate "1.0".toList = none ∧
    validate "0.5".toList = none := by
  cases hf : s.find? (fun c => !allowedChar c) with
  | some c0 =>
    have hval : validate s = some (ValidationError.invalidCharacter c0) := by
      simp only [validate, hf]
    have hc0mem : c0 ∈ s := List.mem_of_find?_eq_some hf
    have hc0na : ¬ AllowedSpec c0 := by
      have hp := List.find?_some hf
      intro hA
      rw [(allowedChar_iff c0).mpr hA] at hp
      exact Bool.noConfusion hp
    refine ⟨?_, ?_, ?_, ?_, by decide, by decide, by decide, by decide⟩
    · exact ⟨fun _ => ⟨c0, hc0mem, hc0na⟩, fun _ => ⟨c0, hval⟩⟩
    · intro c hc
      rw [hval] at hc
      injection hc with hc2
      injection hc2 with hc3
      subst hc3
      exact ⟨hc0mem, hc0na⟩
    · rw [hval]
      exact ⟨fun h => absurd h (by simp), fun ⟨hall, _⟩ => absurd (hall c0 hc0mem) hc0na⟩
    · rw [hval]
      exact ⟨fun h => absurd h (by simp), fun ⟨hall, _⟩ => absurd (hall c0 hc0mem) hc0na⟩
  | none =>
    have hall : ∀ c ∈ s, AllowedSpec c := by
      intro c hc
      have hnp := List.find?_eq_none.mp hf c hc
      have h2 : allowedChar c = true := by
        by_contra hcontra
        have hfalse : allowedChar c = false := by
          revert hcontra
          cases allowedChar c <;> simp
        exact hnp (by rw [hfalse]; rfl)
      exact (allowedChar_iff c).mp h2
    have hval : validate s =
        if openFloatFound s then some ValidationError.ambiguousFloatLiteral else none := by
      simp only [validate, hf]
    by_cases hof : openFloatFound s = true
    · have hv2 : validate s = some ValidationError.ambiguousFloatLiteral := by
        rw [hval, if_pos hof]
      have hospec : OpenFloatSpec s := (openFloatFound_iff s).mp hof
      refine ⟨?_, ?_, ?_, ?_, by decide, by decide, by decide, by decide⟩
      · constructor
        · rintro ⟨c, hc⟩
          rw [hv2] at hc
          exact absurd hc (by simp)
        · rintro ⟨c, hc, hna⟩
          exact absurd (hall c hc) hna
      · intro c hc
        rw [hv2] at hc
        exact absurd hc (by simp)
      · exact ⟨fun _ => ⟨hall, hospec⟩, fun _ => hv2⟩
      · rw [hv2]
        exact ⟨fun h => absurd h (by simp), fun ⟨_, hno⟩ => absurd hospec hno⟩
    · have hv2 : validate s = none := by
        rw [hval, if_neg hof]
      have hnospec : ¬ OpenFloatSpec s := fun ho => hof ((openFloatFound_iff s).mpr ho)
      refine ⟨?_, ?_, ?_, ?_, by decide, by decide, by decide, by decide⟩
      · constructor
        · rintro ⟨c, hc⟩
          rw [hv2] at hc
          exact absurd hc (by simp)
        · rintro ⟨c, hc, hna⟩
          exact absurd (hall c hc) hna
      · intro c hc
        rw [hv2] at hc
        exact absurd hc (by simp)
      · rw [hv2]
        exact ⟨fun h => absurd h (by simp), fun ⟨_, ho⟩ => absurd ho hnospec⟩
      · exact ⟨fun _ => ⟨hall, hnospec⟩, fun _ => hv2⟩

theorem C2_validator_witness : '$' ∈ "a$".toList ∧ ¬ AllowedSpec '$' :=
  (C2_validator "a$".toList).2.1 '$' (by decide)

/-- C3: the Identifier Qualifier rewrites exactly the maximal unescaped
identifier runs (not preceded by a letter, digit, underscore, period or
escape marker) to their namespace-qualified form and leaves every other
substring, including escaped identifiers with their marker, unchanged; in
particular sin(x) becomes mp.sin(mp.x) and an escaped identifier stays
escaped and unqualified at this stage. -/
theorem C3_identifier_qualifier :
    (∀ s : List Char, NameQual none s (replaceNames s)) ∧
    replaceNames "sin(x)".toList = "mp.sin(mp.x)".toList ∧
    replaceNames (backslashChar :: 'x' :: []) = backslashChar :: 'x' :: [] :=
  ⟨fun s => replaceNamesF_refines s.length none s (Nat.le_refl _), by decide, by decide⟩

/-- C4 as stated fails: the source's integer grammar accepts consecutive
underscores, so 1__2 is extracted and stored as one literal although it is
not made of digit groups separated by single underscores. -/
theorem C4_counterexample :
    (replaceNumbers "1__2".toList []).1 = numLookup "1__2".toList ∧
    (replaceNumbers "1__2".toList []).2 = ["1__2".toList] ∧
    specIntClaimed "1__2".toList = false := by
  exact ⟨by decide, by decide, by decide⟩

/-- C4 amended: with the integer grammar allowing repeated (but not
leading or trailing) underscores, the Literal Extractor replaces exactly
the numeric literal matches subject to the claim's adjacency conditions,
and -3.5 is extracted as one token including its minus sign. -/
theorem C4_amended_extractor :
    (∀ (s : List Char) (tbl : List (List Char)),
        NumRw none s tbl (replaceNumbers s tbl).1 (replaceNumbers s tbl).2) ∧
    (replaceNumbers "-3.5".toList []).1 = numLookup "-3.5".toList ∧
    (replaceNumbers "-3.5".toList []).2 = ["-3.5".toList] :=
  ⟨fun s tbl => replaceNumbersF_refines s.length none s tbl (Nat.le_refl _),
    by decide, by decide⟩

/-- C1 as stated fails: for input 3j the match including the marker is
consumed, but the key stored in the table and referenced by the lookup
expression is the whole text 3j with the marker, not 3 without it. -/
theorem C1_counterexample :
    (replaceNumbers "3j".toList []).2 = ["3j".toList] ∧
    (replaceNumbers "3j".toList []).2 ≠ ["3".toList] ∧
    (replaceNumbers "3j".toList []).1 = numLookup "3j".toList := by
  exact ⟨by decide, by decide, by decide⟩

/-- C1 amended: the trailing marker is consumed as part of the match, the
key stored and referenced is the whole match text including the marker,
and every newly stored key is a full grammar match (marker included when
present) occurring in the input; the parsed value is mpmathify of that
key text, so whether it is complex follows from the marker's presence in
the key. -/
theorem C1_amended_key :
    (∀ (s : List Char) (tbl : List (List Char)) (key : List Char),
        key ∈ (replaceNumbers s tbl).2 → key ∈ tbl ∨ (SpecNumber key ∧ key <:+: s)) ∧
    (replaceNumbers "2.5j".toList []).2 = ["2.5j".toList] ∧
    (replaceNumbers "2.5j".toList []).1 = numLookup "2.5j".toList :=
  ⟨fun s tbl key h => replaceNumbersF_keys s.length none s tbl key h, by decide, by decide⟩

theorem C1_amended_key_witness :
    ("2.5j".toList ∈ (replaceNumbers "2.5j".toList []).2) ∧
    ("2.5j".toList ∈ ([] : List (List Char)) ∨
      (SpecNumber "2.5j".toList ∧ "2.5j".toList <:+: "2.5j".toList)) :=
  ⟨by decide, C1_amended_key.1 "2.5j".toList [] "2.5j".toList (by decide)⟩

/-- C5: the literal table never holds two entries with the same key
(re-encountering a stored text is a lookup, not a re-parse), and for
1.5 + 1.5 the table ends with exactly one entry for 1.5 while the
rewritten string references that entry twice. -/
theorem C5_idempotent :
    (∀ (s : List Char) (tbl : List (List Char)), tbl.Nodup →
        ((replaceNumbers s tbl).2).Nodup) ∧
    (replaceNumbers "1.5 + 1.5".toList []).2 = ["1.5".toList] ∧
    (replaceNumbers "1.5 + 1.5".toList []).1 =
      numLookup "1.5".toList ++ " + ".toList ++ numLookup "1.5".toList :=
  ⟨fun s tbl h => replaceNumbersF_nodup s.length none s tbl h, by decide, by decide⟩

theorem C5_idempotent_witness :
    ([] : List (List Char)).Nodup ∧ ((replaceNumbers "1.5 + 1.5".toList []).2).Nodup :=
  ⟨List.nodup_nil, C5_idempotent.1 "1.5 + 1.5".toList [] List.nodup_nil⟩

/-- C6: the Escape Stripper deletes every occurrence of the escape marker
regardless of position and changes no other character (it equals filtering
the marker out), and the escaped identifier input backslash-x leaves the
full rewrite pipeline as the bare identifier x, unqualified, with no
marker left. -/
theorem C6_escape_stripper :
    (∀ s : List Char, stripEscapes s = s.filter (fun c => c ≠ backslashChar)) ∧
    (pipelineRewrite (backslashChar :: 'x' :: [])).1 = "x".toList := by
  constructor
  · intro s
    induction s with
    | nil => rfl
    | cons c rest ih =>
      show (if c = backslashChar then stripEscapes rest else c :: stripEscapes rest) = _
      by_cases h : c = backslashChar
      · rw [if_pos h, ih]
        simp [List.filter_cons, h]
      · rw [if_neg h, ih]
        simp [List.filter_cons, h]
  · decide

/-- C7: with the all-digits flag set and debug off, a result that cannot
be coerced to an arbitrary-precision scalar is printed by falling back to
nprint of the raw result at the same digit count (an output action is
still produced), and a coercible result is printed at exactly the
requested digit count with zero-stripping disabled. -/
theorem C7_all_digits_fallback (Scalar Value : Type) (digits : Nat)
    (r : Option Scalar) (v : Value) :
    (r = none →
      outputStep Scalar Value false true digits r v =
        OutputAction.nprintRaw v digits false) ∧
    (∀ x, r = some x →
      outputStep Scalar Value false true digits r v =
        OutputAction.nprint x digits false) := by
  constructor
  · rintro rfl
    rfl
  · rintro x rfl
    rfl

theorem C7_all_digits_fallback_witness :
    outputStep Nat Nat false true 10 none 4 = OutputAction.nprintRaw 4 10 false ∧
    outputStep Nat Nat false true 10 (some 5) 4 = OutputAction.nprint 5 10 false :=
  ⟨(C7_all_digits_fallback Nat Nat 10 none 4).1 rfl,
    (C7_all_digits_fallback Nat Nat 10 (some 5) 4).2 5 rfl⟩

/-- C8 as stated fails: with the debug flag on the program prints the
repr of the result instead of the normal output, so the printed result
differs between the two flag values even on a successful run, here 2+2
with default formatting. -/
theorem C8_counterexample :
    programAction Nat Nat ("2+2".toList) 10 false true (fun _ _ => 4) (fun v => some v) ≠
      programAction Nat Nat ("2+2".toList) 10 false false (fun _ _ => 4) (fun v => some v) := by
  decide

/-- C8 amended: the debug flag changes neither whether the run succeeds
nor the evaluated result; it only replaces the output formatting, printing
the repr of the same evaluated value instead of the normal output. -/
theorem C8_amended_debug (Scalar Value : Type) (expr : List Char) (digits : Nat)
    (allDigits : Bool) (evalFn : List Char → List (List Char) → Value)
    (mpm : Value → Option Scalar) :
    ((programAction Scalar Value expr digits allDigits true evalFn mpm).isSome =
      (programAction Scalar Value expr digits allDigits false evalFn mpm).isSome) ∧
    (∀ act, programAction Scalar Value expr digits allDigits true evalFn mpm = some act →
      act = OutputAction.debugRepr
        (evalFn (pipelineRewrite expr).1 (pipelineRewrite expr).2)) := by
  unfold programAction
  cases validate expr with
  | some e =>
    refine ⟨rfl, ?_⟩
    intro act h
    exact absurd h (by simp)
  | none =>
    refine ⟨rfl, ?_⟩
    intro act h
    simp only [Option.some.injEq] at h
    rw [← h]
    rfl

theorem C8_amended_debug_witness :
    (OutputAction.debugRepr 4 : OutputAction Nat Nat) =
      OutputAction.debugRepr ((fun _ _ => 4) (pipelineRewrite "2+2".toList).1
        (pipelineRewrite "2+2".toList).2) :=
  (C8_amended_debug Nat Nat ("2+2".toList) 10 false (fun _ _ => 4) (fun v => some v)).2
    (OutputAction.debugRepr 4) (by decide)

/-- C9: the precision setting is scoped to one evaluation: the body runs
at the requested precision and the prior precision is restored on every
exit path, normal completion or failure; when the body leaves the rest of
the arithmetic environment unchanged, the whole state is restored. -/
theorem C9_workdps_scoped (σ ε α : Type) (digits : Nat) (st : MPState σ)
    (body : MPState σ → Except (ε × MPState σ) (α × MPState σ)) :
    ((withWorkdps σ ε α digits st body).2.dps = st.dps) ∧
    ((MPState.mk digits st.env : MPState σ).dps = digits) ∧
    (∀ a st1, body (MPState.mk digits st.env) = Except.ok (a, st1) → st1.env = st.env →
      (withWorkdps σ ε α digits st body).2 = st) ∧
    (∀ e st1, body (MPState.mk digits st.env) = Except.error (e, st1) → st1.env = st.env →
      (withWorkdps σ ε α digits st body).2 = st) := by
  refine ⟨?_, rfl, ?_, ?_⟩
  · unfold withWorkdps
    cases hb : body (MPState.mk digits st.env) with
    | ok p =>
      cases p
      rfl
    | error p =>
      cases p
      rfl
  · intro a st1 h henv
    unfold withWorkdps
    rw [h]
    show MPState.mk st.dps st1.env = st
    rw [henv]
  · intro e st1 h henv
    unfold withWorkdps
    rw [h]
    show MPState.mk st.dps st1.env = st
    rw [henv]

theorem C9_workdps_scoped_witness :
    (withWorkdps Nat Unit Nat 50 (MPState.mk 100 0)
        (fun s => Except.ok (7, s))).2 = MPState.mk 100 0 ∧
    (withWorkdps Nat Unit Nat 50 (MPState.mk 100 0)
        (fun _ => Except.error ((), MPState.mk 50 0))).2 = MPState.mk 100 0 :=
  ⟨(C9_workdps_scoped Nat Unit Nat 50 (MPState.mk 100 0) (fun s => Except.ok (7, s))).2.2.1
      7 (MPState.mk 50 0) rfl rfl,
    (C9_workdps_scoped Nat Unit Nat 50 (MPState.mk 100 0)
        (fun _ => Except.error ((), MPState.mk 50 0))).2.2.2 () (MPState.mk 50 0) rfl rfl⟩

/-- C10: each invocation's literal table starts empty (the module dict is
initialized fresh when the one-shot process starts) and every key it ends
with is a literal text occurring in that invocation's own qualified
expression, so two independent runs each see only their own literals. -/
theorem C10_table_ownership (e1 e2 : List Char) :
    (∀ key ∈ (pipelineRewrite e1).2, key <:+: replaceNames e1) ∧
    (∀ key ∈ (pipelineRewrite e2).2, key <:+: replaceNames e2) := by
  constructor <;>
  · intro key h
    rcases replaceNumbersF_keys _ none _ [] key h with h1 | ⟨_, h2⟩
    · exact absurd h1 (List.not_mem_nil key)
    · exact h2

theorem C10_table_ownership_witness :
    ("1.5".toList ∈ (pipelineRewrite "1.5+2".toList).2) ∧
    "1.5".toList <:+: replaceNames "1.5+2".toList :=
  ⟨by decide, (C10_table_ownership "1.5+2".toList "2".toList).1 "1.5".toList (by decide)⟩

end Mpcalc
